import Mathlib

/-!
# AutoMontage timeline planner — formal model

Shallow embedding of the timeline-placement core of `src/app.py`
(`generate_montage`, lines 36–112) and of the input validation performed by
its caller `main` (lines 165–188).  Times are modelled as exact rationals.

The Python loop iterates `for i, clip_data in enumerate(clips_info)` with
`beat_time = beat_drops[i]`, carrying the mutable accumulator
`previous_kill_final_time` (initially `None`).  A list index that is out of
range, or arithmetic on `None`, raises in Python; both are modelled as
`Option.none` results of the whole computation.
-/

/-- One input clip: its total duration and the local time of its kill
(key moment), as supplied to `generate_montage` via `clips_info`. -/
structure ClipInput where
  duration : ℚ
  kill_time : ℚ
deriving DecidableEq, Repr

/-- One placement record produced by the planner: source clip index, the
clamped local trim window, and the absolute start of the extracted segment
on the output timeline (`subclip.with_start(time_offset)`, line 97). -/
structure PlacementPlan where
  source_index : ℕ
  trim_start : ℚ
  trim_end : ℚ
  timeline_offset : ℚ
deriving DecidableEq, Repr

/-- Python's builtin `max` on two numbers, as used in `max(0, local_start)`
(line 72): returns the larger argument. -/
def pymax (a b : ℚ) : ℚ := if a ≤ b then b else a

/-- Python's builtin `min` on two numbers, as used in
`min(local_start, clip.duration)` (line 73): returns the smaller argument. -/
def pymin (a b : ℚ) : ℚ := if a ≤ b then a else b

/-- Lines 51–66 of `app.py`: the pre-clamp local trim start.  For the first
clip it is `0`; for a later clip it is
`kill_time - (beat_time - (previous_kill_final_time + 1))`.
When `previous_kill_final_time` is still `None` at `i > 0` the Python code
would raise a `TypeError` on `None + 1`; that is the `none` case. -/
def localStart (i : ℕ) (kill_time beat_time : ℚ) (prev : Option ℚ) : Option ℚ :=
  if i = 0 then some 0
  else prev.map (fun p => kill_time - (beat_time - (p + 1)))

/-- Lines 49–105 of `app.py` for a single loop iteration, given the current
accumulator value `prev`: computes the raw bounds, clamps them to
`[0, duration]`, skips the clip when the window is degenerate
(`local_start >= local_end`, line 78 — note the `continue` fires *before*
the accumulator update at line 102), and otherwise emits a placement and
sets the accumulator to `beat_time`.  Returns `none` where Python raises. -/
def processClip (i : ℕ) (clip : ClipInput) (beat_time : ℚ) (prev : Option ℚ) :
    Option (Option PlacementPlan × Option ℚ) :=
  match localStart i clip.kill_time beat_time prev with
  | none => none
  | some raw_start =>
    let trim_start := pymin (pymax 0 raw_start) clip.duration
    let trim_end := pymin (pymax 0 (clip.kill_time + 1)) clip.duration
    if trim_end ≤ trim_start then
      some (none, prev)
    else
      some (some { source_index := i, trim_start := trim_start, trim_end := trim_end,
                   timeline_offset := beat_time - (clip.kill_time - trim_start) },
            some beat_time)

/-- The planning loop of `generate_montage` (lines 38–105) over an
enumerated clip list, threading the `previous_kill_final_time` accumulator.
`beat_drops[i]` out of range is an `IndexError`, modelled as `none`. -/
def planLoop (beat_drops : List ℚ) :
    List (ℕ × ClipInput) → Option ℚ → Option (List PlacementPlan × Option ℚ)
  | [], prev => some ([], prev)
  | (i, clip) :: rest, prev =>
    match beat_drops[i]? with
    | none => none
    | some beat_time =>
      match processClip i clip beat_time prev with
      | none => none
      | some (res, newPrev) =>
        (planLoop beat_drops rest newPrev).map
          (fun r => (res.toList ++ r.1, r.2))

/-- The planning core of `generate_montage`: run the loop over
`enumerate(clips_info)` starting from `previous_kill_final_time = None`,
returning the surviving placements in order together with the final
accumulator value (`none` when Python would raise). -/
def generate_montage (clips_info : List ClipInput) (beat_drops : List ℚ) :
    Option (List PlacementPlan × Option ℚ) :=
  planLoop beat_drops clips_info.enum none

/-- The value of `previous_kill_final_time` after the loop has processed the
first `k` clips (so "after processing index *i*" is `stateAfter _ _ (i+1)`);
outer `none` when Python would have raised on the way. -/
def stateAfter (clips_info : List ClipInput) (beat_drops : List ℚ) (k : ℕ) :
    Option (Option ℚ) :=
  (planLoop beat_drops (clips_info.enum.take k) none).map Prod.snd

/-- Duration of `CompositeVideoClip(placed_clips)` (line 108): the external
library computes it as the maximum end time `start + duration` over the
placed subclips, i.e. `timeline_offset + (trim_end - trim_start)`; an empty
clip list makes the composite duration undefined (`none`). -/
def compositeDuration (plans : List PlacementPlan) : Option ℚ :=
  match plans.map (fun e => e.timeline_offset + (e.trim_end - e.trim_start)) with
  | [] => none
  | x :: xs => some (xs.foldl pymax x)

/-- Lines 107–112 of `app.py`: the final output duration is the maximum of
the composite video's duration and the audio duration. -/
def finalDuration (audio_duration : ℚ) (clips_info : List ClipInput)
    (beat_drops : List ℚ) : Option ℚ :=
  (generate_montage clips_info beat_drops).bind
    (fun r => (compositeDuration r.1).map (fun m => pymax m audio_duration))

/-- Error taxonomy for a full planning invocation: `validation` is the
fail-fast input check the caller performs before planning (`main`,
lines 170–188: empty clip list, or a length mismatch between the clips and
the beat-drop list); `runtime` is any uncaught error inside the loop. -/
inductive PlanError where
  | validation
  | runtime
deriving DecidableEq, Repr

/-- The planning operation as invoked through `main`: the input checks of
lines 170–188 (clip list non-empty, `len(beat_drops) == len(clips)`;
kill times are already paired with clips in `ClipInput`), then the
planning core. -/
def plan (clips_info : List ClipInput) (beat_drops : List ℚ) :
    Except PlanError (List PlacementPlan × Option ℚ) :=
  if clips_info = [] ∨ clips_info.length ≠ beat_drops.length then
    .error .validation
  else
    match generate_montage clips_info beat_drops with
    | none => .error .runtime
    | some r => .ok r

/-- Spec §3 preconditions on the numeric inputs: every clip has positive
duration and a kill time within `[0, duration]`. -/
def clipsValid (clips_info : List ClipInput) : Prop :=
  ∀ c ∈ clips_info, 0 < c.duration ∧ 0 ≤ c.kill_time ∧ c.kill_time ≤ c.duration

instance (clips_info : List ClipInput) : Decidable (clipsValid clips_info) := by
  unfold clipsValid; infer_instance

/-- What the loop guarantees of each emitted placement record, relative to
the enumerated pair `pr = (index, clip)` it was produced from. -/
def entryOk (beat_drops : List ℚ) (pr : ℕ × ClipInput) (e : PlacementPlan) : Prop :=
  e.source_index = pr.1 ∧
  ∃ beat_time raw_start,
    beat_drops[pr.1]? = some beat_time ∧
    e.trim_start = pymin (pymax 0 raw_start) pr.2.duration ∧
    e.trim_end = pymin (pymax 0 (pr.2.kill_time + 1)) pr.2.duration ∧
    e.trim_start < e.trim_end ∧
    e.timeline_offset = beat_time - (pr.2.kill_time - e.trim_start)

/-! ## Helper lemmas -/

theorem pymax_eq (a b : ℚ) : pymax a b = max a b := by
  unfold pymax
  rcases le_total a b with h | h
  · simp [h, max_eq_right h]
  · rcases eq_or_lt_of_le h with rfl | h2
    · simp
    · simp [not_le.mpr h2, max_eq_left h]

theorem pymin_eq (a b : ℚ) : pymin a b = min a b := by
  unfold pymin
  rcases le_total a b with h | h
  · simp [h, min_eq_left h]
  · rcases eq_or_lt_of_le h with rfl | h2
    · simp
    · simp [not_le.mpr h2, min_eq_right h]

/-- `localStart` succeeds exactly when `i = 0` or the accumulator is set. -/
theorem localStart_pos (i : ℕ) (kill_time beat_time p : ℚ) :
    localStart i kill_time beat_time (some p) =
      some (if i = 0 then 0 else kill_time - (beat_time - (p + 1))) := by
  unfold localStart
  split <;> simp [Option.map]

/-- A skipped clip leaves the accumulator untouched (the `continue` at
line 81 of `app.py` fires before the update at line 102). -/
theorem processClip_skip (i : ℕ) (clip : ClipInput) (beat_time : ℚ)
    (prev newPrev : Option ℚ)
    (h : processClip i clip beat_time prev = some (none, newPrev)) :
    newPrev = prev := by
  unfold processClip at h
  cases hls : localStart i clip.kill_time beat_time prev with
  | none => rw [hls] at h; exact absurd h (by simp)
  | some raw_start =>
    rw [hls] at h
    dsimp only at h
    split at h
    · simp only [Option.some.injEq, Prod.mk.injEq] at h
      exact h.2.symm
    · simp at h

/-- A surviving clip sets the accumulator to its beat time and its placement
record carries exactly the clamped bounds and derived offset of
lines 72–94 of `app.py`. -/
theorem processClip_survive (i : ℕ) (clip : ClipInput) (beat_time : ℚ)
    (prev newPrev : Option ℚ) (e : PlacementPlan)
    (h : processClip i clip beat_time prev = some (some e, newPrev)) :
    newPrev = some beat_time ∧
    e.source_index = i ∧
    (∃ raw_start, localStart i clip.kill_time beat_time prev = some raw_start ∧
      e.trim_start = pymin (pymax 0 raw_start) clip.duration) ∧
    e.trim_end = pymin (pymax 0 (clip.kill_time + 1)) clip.duration ∧
    e.trim_start < e.trim_end ∧
    e.timeline_offset = beat_time - (clip.kill_time - e.trim_start) := by
  unfold processClip at h
  cases hls : localStart i clip.kill_time beat_time prev with
  | none => rw [hls] at h; exact absurd h (by simp)
  | some raw_start =>
    rw [hls] at h
    dsimp only at h
    split at h
    · simp at h
    · rename_i hlt
      simp only [Option.some.injEq, Prod.mk.injEq] at h
      obtain ⟨he, hp⟩ := h
      subst he
      exact ⟨hp.symm, rfl, ⟨raw_start, rfl, rfl⟩, rfl, not_le.mp hlt, rfl⟩

/-- Every successful step is a skip or a survival. -/
theorem processClip_cases (i : ℕ) (clip : ClipInput) (beat_time : ℚ)
    (prev : Option ℚ) (res : Option PlacementPlan) (newPrev : Option ℚ)
    (h : processClip i clip beat_time prev = some (res, newPrev)) :
    (res = none ∧ newPrev = prev) ∨
    (∃ e, res = some e ∧ newPrev = some beat_time) := by
  cases res with
  | none => exact Or.inl ⟨rfl, processClip_skip _ _ _ _ _ h⟩
  | some e => exact Or.inr ⟨e, rfl, (processClip_survive _ _ _ _ _ _ h).1⟩

/-- Splitting the planning loop over a concatenated clip list. -/
theorem planLoop_append (beat_drops : List ℚ) (xs ys : List (ℕ × ClipInput))
    (prev : Option ℚ) :
    planLoop beat_drops (xs ++ ys) prev =
      (planLoop beat_drops xs prev).bind (fun r =>
        (planLoop beat_drops ys r.2).map (fun s => (r.1 ++ s.1, s.2))) := by
  induction xs generalizing prev with
  | nil =>
    simp only [List.nil_append, planLoop, Option.bind]
    cases planLoop beat_drops ys prev with
    | none => rfl
    | some s => rfl
  | cons hd tl ih =>
    obtain ⟨i, clip⟩ := hd
    simp only [List.cons_append, planLoop]
    cases hbeat : beat_drops[i]? with
    | none => simp
    | some beat_time =>
      dsimp only
      cases hstep : processClip i clip beat_time prev with
      | none => simp
      | some r =>
        obtain ⟨res, newPrev⟩ := r
        dsimp only
        simp only [List.append_eq]
        rw [ih newPrev]
        cases h1 : planLoop beat_drops tl newPrev with
        | none => simp
        | some r1 =>
          cases h2 : planLoop beat_drops ys r1.2 with
          | none => simp [h2]
          | some s => simp [h2, List.append_assoc]

/-- Every placement record a successful loop run emits comes from one of the
processed `(index, clip)` pairs and satisfies `entryOk` for it. -/
theorem planLoop_entries (beat_drops : List ℚ) (pairs : List (ℕ × ClipInput)) :
    ∀ prev plans p, planLoop beat_drops pairs prev = some (plans, p) →
      ∀ e ∈ plans, ∃ pr ∈ pairs, entryOk beat_drops pr e := by
  induction pairs with
  | nil =>
    intro prev plans p h e he
    unfold planLoop at h
    simp only [Option.some.injEq, Prod.mk.injEq] at h
    rw [← h.1] at he
    exact absurd he (by simp)
  | cons hd tl ih =>
    intro prev plans p h e he
    obtain ⟨i, clip⟩ := hd
    unfold planLoop at h
    cases hbeat : beat_drops[i]? with
    | none => rw [hbeat] at h; exact absurd h (by simp)
    | some beat_time =>
      rw [hbeat] at h
      dsimp only at h
      cases hstep : processClip i clip beat_time prev with
      | none => rw [hstep] at h; exact absurd h (by simp)
      | some r =>
        obtain ⟨res, newPrev⟩ := r
        rw [hstep] at h
        dsimp only at h
        cases htl : planLoop beat_drops tl newPrev with
        | none => rw [htl] at h; exact absurd h (by simp)
        | some r1 =>
          obtain ⟨qs, q⟩ := r1
          rw [htl] at h
          simp only [Option.map, Option.some.injEq, Prod.mk.injEq] at h
          rw [← h.1] at he
          rcases List.mem_append.mp he with hin | hin
          · cases res with
            | none => exact absurd hin (by simp)
            | some e0 =>
              simp only [Option.toList, List.mem_singleton] at hin
              subst hin
              obtain ⟨_, hsi, ⟨raw, hls, hts⟩, hte, hlt, hoff⟩ :=
                processClip_survive i clip beat_time prev newPrev e hstep
              exact ⟨(i, clip), List.mem_cons_self _ _,
                hsi, beat_time, raw, hbeat, hts, hte, hlt, hoff⟩
          · obtain ⟨pr, hpr, hok⟩ := ih newPrev qs q htl e hin
            exact ⟨pr, List.mem_cons_of_mem _ hpr, hok⟩

/-- On success the final accumulator value is the beat time of the last
surviving clip, or the starting value when nothing survived. -/
theorem planLoop_state (beat_drops : List ℚ) (pairs : List (ℕ × ClipInput)) :
    ∀ prev plans p, planLoop beat_drops pairs prev = some (plans, p) →
      (plans = [] ∧ p = prev) ∨
      (∃ e beat_time, plans.getLast? = some e ∧
        beat_drops[e.source_index]? = some beat_time ∧ p = some beat_time) := by
  induction pairs with
  | nil =>
    intro prev plans p h
    unfold planLoop at h
    simp only [Option.some.injEq, Prod.mk.injEq] at h
    exact Or.inl ⟨h.1.symm, h.2.symm⟩
  | cons hd tl ih =>
    intro prev plans p h
    obtain ⟨i, clip⟩ := hd
    unfold planLoop at h
    cases hbeat : beat_drops[i]? with
    | none => rw [hbeat] at h; exact absurd h (by simp)
    | some beat_time =>
      rw [hbeat] at h
      dsimp only at h
      cases hstep : processClip i clip beat_time prev with
      | none => rw [hstep] at h; exact absurd h (by simp)
      | some r =>
        obtain ⟨res, newPrev⟩ := r
        rw [hstep] at h
        dsimp only at h
        cases htl : planLoop beat_drops tl newPrev with
        | none => rw [htl] at h; exact absurd h (by simp)
        | some r1 =>
          obtain ⟨qs, q⟩ := r1
          rw [htl] at h
          simp only [Option.map, Option.some.injEq, Prod.mk.injEq] at h
          obtain ⟨hplans, hq⟩ := h
          rcases processClip_cases i clip beat_time prev res newPrev hstep with
            ⟨hres, hprev⟩ | ⟨e0, hres, hprev⟩
          · subst hres
            rcases ih newPrev qs q htl with ⟨hqs, hpq⟩ | ⟨e, bt, hlast, hb, hpq⟩
            · exact Or.inl ⟨by rw [← hplans, hqs]; rfl, hq ▸ hpq.trans hprev⟩
            · exact Or.inr ⟨e, bt, by rw [← hplans]; simpa using hlast, hb, hq ▸ hpq⟩
          · subst hres
            obtain ⟨_, hsi, _, _, _, _⟩ :=
              processClip_survive i clip beat_time prev newPrev e0 hstep
            rcases ih newPrev qs q htl with ⟨hqs, hpq⟩ | ⟨e, bt, hlast, hb, hpq⟩
            · subst hqs
              refine Or.inr ⟨e0, beat_time, ?_, ?_, ?_⟩
              · rw [← hplans]; rfl
              · rw [hsi]; exact hbeat
              · rw [hq] at hpq; rw [hpq, hprev]
            · refine Or.inr ⟨e, bt, ?_, hb, hq ▸ hpq⟩
              rw [← hplans]
              cases qs with
              | nil => exact absurd hlast (by simp)
              | cons y ys => simpa using hlast

/-- With the accumulator already set and every remaining index within the
beat list, the rest of the loop cannot fail, and the accumulator stays set. -/
theorem planLoop_isSome (beat_drops : List ℚ) (pairs : List (ℕ × ClipInput)) :
    ∀ p0, (∀ pr ∈ pairs, pr.1 < beat_drops.length) →
      ∃ plans q, planLoop beat_drops pairs (some p0) = some (plans, some q) := by
  induction pairs with
  | nil => exact fun p0 _ => ⟨[], p0, rfl⟩
  | cons hd tl ih =>
    intro p0 hrange
    obtain ⟨i, clip⟩ := hd
    have hi : i < beat_drops.length := hrange (i, clip) (List.mem_cons_self _ _)
    obtain ⟨beat_time, hbeat⟩ :
        ∃ b, beat_drops[i]? = some b := by
      rw [List.getElem?_eq_getElem hi]; exact ⟨_, rfl⟩
    have hls := localStart_pos i clip.kill_time beat_time p0
    have htlrange : ∀ pr ∈ tl, pr.1 < beat_drops.length :=
      fun pr hpr => hrange pr (List.mem_cons_of_mem _ hpr)
    by_cases hcond : pymin (pymax 0 (clip.kill_time + 1)) clip.duration ≤
        pymin (pymax 0 (if i = 0 then 0 else clip.kill_time - (beat_time - (p0 + 1))))
          clip.duration
    · have hstep : processClip i clip beat_time (some p0) = some (none, some p0) := by
        unfold processClip
        rw [hls]
        dsimp only
        rw [if_pos hcond]
      obtain ⟨plans, q, htl⟩ := ih p0 htlrange
      refine ⟨plans, q, ?_⟩
      unfold planLoop
      rw [hbeat]
      dsimp only
      rw [hstep]
      dsimp only
      rw [htl]
      rfl
    · have hstep : processClip i clip beat_time (some p0) =
          some (some
            { source_index := i,
              trim_start := pymin (pymax 0
                (if i = 0 then 0 else clip.kill_time - (beat_time - (p0 + 1))))
                clip.duration,
              trim_end := pymin (pymax 0 (clip.kill_time + 1)) clip.duration,
              timeline_offset := beat_time - (clip.kill_time - pymin (pymax 0
                (if i = 0 then 0 else clip.kill_time - (beat_time - (p0 + 1))))
                clip.duration) },
            some beat_time) := by
        unfold processClip
        rw [hls]
        dsimp only
        rw [if_neg hcond]
      obtain ⟨plans, q, htl⟩ := ih beat_time htlrange
      refine ⟨PlacementPlan.mk i
          (pymin (pymax 0
            (if i = 0 then 0 else clip.kill_time - (beat_time - (p0 + 1))))
            clip.duration)
          (pymin (pymax 0 (clip.kill_time + 1)) clip.duration)
          (beat_time - (clip.kill_time - pymin (pymax 0
            (if i = 0 then 0 else clip.kill_time - (beat_time - (p0 + 1))))
            clip.duration)) :: plans, q, ?_⟩
      unfold planLoop
      rw [hbeat]
      dsimp only
      rw [hstep]
      dsimp only
      rw [htl]
      rfl

/-- A one-clip run of the loop, in closed form. -/
theorem planLoop_singleton (beat_drops : List ℚ) (i : ℕ) (clip : ClipInput)
    (prev : Option ℚ) :
    planLoop beat_drops [(i, clip)] prev =
      (beat_drops[i]?).bind (fun beat_time =>
        (processClip i clip beat_time prev).map (fun r => (r.1.toList, r.2))) := by
  unfold planLoop
  cases beat_drops[i]? with
  | none => rfl
  | some beat_time =>
    dsimp only
    cases hstep : processClip i clip beat_time prev with
    | none => simp [hstep]
    | some r =>
      obtain ⟨res, newPrev⟩ := r
      simp [hstep, planLoop]

/-- The last element an Option-returning `getLast?` reports is a member. -/
theorem getLast?_mem {α : Type} (l : List α) (a : α) (h : l.getLast? = some a) :
    a ∈ l := by
  obtain ⟨hne, heq⟩ := List.mem_getLast?_eq_getLast (Option.mem_def.mpr h)
  rw [heq]
  exact List.getLast_mem hne

/-- The seed of a `pymax` fold bounds it from below, and so does every
element folded over. -/
theorem foldl_pymax_le (xs : List ℚ) :
    ∀ x, x ≤ xs.foldl pymax x ∧ ∀ y ∈ xs, y ≤ xs.foldl pymax x := by
  induction xs with
  | nil =>
    intro x
    exact ⟨le_refl x, by simp⟩
  | cons a as ih =>
    intro x
    obtain ⟨h1, h2⟩ := ih (pymax x a)
    have hxa : x ≤ pymax x a := by rw [pymax_eq]; exact le_max_left _ _
    have haa : a ≤ pymax x a := by rw [pymax_eq]; exact le_max_right _ _
    refine ⟨le_trans hxa h1, ?_⟩
    intro y hy
    rcases List.mem_cons.mp hy with rfl | hy2
    · exact le_trans haa h1
    · exact h2 y hy2

/-- A `pymax` fold returns its seed or one of the folded elements. -/
theorem foldl_pymax_mem (xs : List ℚ) :
    ∀ x, xs.foldl pymax x = x ∨ xs.foldl pymax x ∈ xs := by
  induction xs with
  | nil => exact fun x => Or.inl rfl
  | cons a as ih =>
    intro x
    have hchoice : pymax x a = x ∨ pymax x a = a := by
      unfold pymax
      split
      · exact Or.inr rfl
      · exact Or.inl rfl
    rcases ih (pymax x a) with h | h
    · rw [List.foldl_cons, h]
      rcases hchoice with hx | ha
      · exact Or.inl hx
      · refine Or.inr ?_
        rw [ha]
        exact List.mem_cons_self _ _
    · exact Or.inr (List.mem_cons_of_mem _ h)

/-! ## Claim theorems -/

/-- C1: for every input satisfying the preconditions and every plan entry
that survives planning, `timeline_offset + (key_time_i - trim_start)`
equals `targets[i]` exactly, where `trim_start` is the clamped local start
used for that entry. -/
theorem alignment_invariant (clips_info : List ClipInput) (beat_drops : List ℚ)
    (plans : List PlacementPlan) (p : Option ℚ) (e : PlacementPlan)
    (hvalid : clipsValid clips_info)
    (hrun : generate_montage clips_info beat_drops = some (plans, p))
    (he : e ∈ plans) :
    ∃ clip beat_time,
      clips_info[e.source_index]? = some clip ∧
      beat_drops[e.source_index]? = some beat_time ∧
      e.timeline_offset + (clip.kill_time - e.trim_start) = beat_time := by
  obtain ⟨pr, hpr, hok⟩ :=
    planLoop_entries beat_drops clips_info.enum none plans p hrun e he
  obtain ⟨hsi, beat_time, raw_start, hbeat, hts, hte, hlt, hoff⟩ := hok
  have hclip : clips_info[pr.1]? = some pr.2 := List.mem_enum_iff_getElem?.mp hpr
  refine ⟨pr.2, beat_time, hsi ▸ hclip, hsi ▸ hbeat, ?_⟩
  rw [hoff]
  ring

/-- Witness for C1 at the spec's first concrete scenario. -/
theorem alignment_invariant_witness :
    ∃ clip beat_time,
      ([ClipInput.mk 20 13])[(PlacementPlan.mk 0 0 14 (-5)).source_index]? = some clip ∧
      ([8] : List ℚ)[(PlacementPlan.mk 0 0 14 (-5)).source_index]? = some beat_time ∧
      (PlacementPlan.mk 0 0 14 (-5)).timeline_offset +
        (clip.kill_time - (PlacementPlan.mk 0 0 14 (-5)).trim_start) = beat_time :=
  alignment_invariant [ClipInput.mk 20 13] [8] [PlacementPlan.mk 0 0 14 (-5)]
    (some 8) (PlacementPlan.mk 0 0 14 (-5))
    (by norm_num [clipsValid])
    (by norm_num [generate_montage, planLoop, processClip, localStart, pymin,
      pymax, List.enum, List.enumFrom])
    (List.mem_singleton.mpr rfl)

/-- C3: for every input satisfying the preconditions, every surviving plan
entry satisfies `0 ≤ trim_start < trim_end ≤ duration_i` of its source
clip. -/
theorem bounds_invariant (clips_info : List ClipInput) (beat_drops : List ℚ)
    (plans : List PlacementPlan) (p : Option ℚ) (e : PlacementPlan)
    (clip : ClipInput)
    (hvalid : clipsValid clips_info)
    (hrun : generate_montage clips_info beat_drops = some (plans, p))
    (he : e ∈ plans)
    (hclip : clips_info[e.source_index]? = some clip) :
    0 ≤ e.trim_start ∧ e.trim_start < e.trim_end ∧ e.trim_end ≤ clip.duration := by
  obtain ⟨pr, hpr, hok⟩ :=
    planLoop_entries beat_drops clips_info.enum none plans p hrun e he
  obtain ⟨hsi, beat_time, raw_start, hbeat, hts, hte, hlt, hoff⟩ := hok
  have hclip2 : clips_info[pr.1]? = some pr.2 := List.mem_enum_iff_getElem?.mp hpr
  have hcc : clip = pr.2 := by
    rw [hsi, hclip2] at hclip
    exact (Option.some.injEq _ _ ▸ hclip).symm
  subst hcc
  rw [pymin_eq, pymax_eq] at hts hte
  refine ⟨?_, hlt, hte ▸ min_le_right _ _⟩
  rcases min_choice (max 0 raw_start) pr.2.duration with hc | hc
  · rw [hts, hc]; exact le_max_left _ _
  · exfalso
    have h1 : e.trim_end ≤ e.trim_start := by
      rw [hts, hte, hc]
      exact min_le_right _ _
    exact absurd hlt (not_lt.mpr h1)

/-- Witness for C3 at the spec's first concrete scenario. -/
theorem bounds_invariant_witness :
    0 ≤ (PlacementPlan.mk 0 0 14 (-5)).trim_start ∧
    (PlacementPlan.mk 0 0 14 (-5)).trim_start < (PlacementPlan.mk 0 0 14 (-5)).trim_end ∧
    (PlacementPlan.mk 0 0 14 (-5)).trim_end ≤ (ClipInput.mk 20 13).duration :=
  bounds_invariant [ClipInput.mk 20 13] [8] [PlacementPlan.mk 0 0 14 (-5)]
    (some 8) (PlacementPlan.mk 0 0 14 (-5)) (ClipInput.mk 20 13)
    (by norm_num [clipsValid])
    (by norm_num [generate_montage, planLoop, processClip, localStart, pymin,
      pymax, List.enum, List.enumFrom])
    (List.mem_singleton.mpr rfl)
    (by norm_num)

/-- C4: the planning operation fails with a `ValidationError` (and produces
no plan) exactly when the clip and target lists have different lengths or
either is empty; on every other input this error is not raised. -/
theorem validation_error_iff (clips_info : List ClipInput) (beat_drops : List ℚ) :
    plan clips_info beat_drops = Except.error PlanError.validation ↔
      clips_info.length ≠ beat_drops.length ∨ clips_info = [] ∨ beat_drops = [] := by
  unfold plan
  split
  · rename_i hc
    simp only [true_iff]
    rcases hc with h | h
    · exact Or.inr (Or.inl h)
    · exact Or.inl h
  · rename_i hc
    push_neg at hc
    obtain ⟨hne, hlen⟩ := hc
    constructor
    · intro h
      cases hgm : generate_montage clips_info beat_drops with
      | none => rw [hgm] at h; exact absurd h (by simp)
      | some r => rw [hgm] at h; exact absurd h (by simp)
    · intro h
      rcases h with h | h | h
      · exact absurd hlen h
      · exact absurd h hne
      · rw [h, List.length_nil] at hlen
        exact absurd (List.length_eq_zero.mp hlen) hne

/-- C5: for `i > 0` the pre-clamp trim start is
`key_time - (targets[i] - (previous_key_timeline_position + 1))`; when the
clamp leaves it unchanged, the surviving entry is placed starting exactly
one time-unit after the previous clip's aligned key moment
(`timeline_offset = p + 1`, with `p = targets[i-1]` when the predecessor's
state holds that target). -/
theorem start_one_after_previous (i : ℕ) (clip : ClipInput) (beat_time p : ℚ)
    (e : PlacementPlan) (q : Option ℚ)
    (hi : i ≠ 0)
    (hclamp : pymin (pymax 0 (clip.kill_time - (beat_time - (p + 1)))) clip.duration =
      clip.kill_time - (beat_time - (p + 1)))
    (hstep : processClip i clip beat_time (some p) = some (some e, q)) :
    localStart i clip.kill_time beat_time (some p) =
      some (clip.kill_time - (beat_time - (p + 1))) ∧
    e.trim_start = clip.kill_time - (beat_time - (p + 1)) ∧
    e.timeline_offset = p + 1 := by
  have hls : localStart i clip.kill_time beat_time (some p) =
      some (clip.kill_time - (beat_time - (p + 1))) := by
    rw [localStart_pos, if_neg hi]
  obtain ⟨_, _, ⟨raw_start, hraw, hts⟩, _, _, hoff⟩ :=
    processClip_survive i clip beat_time (some p) q e hstep
  rw [hls] at hraw
  have hr : raw_start = clip.kill_time - (beat_time - (p + 1)) :=
    (Option.some.injEq _ _ ▸ hraw).symm
  subst hr
  rw [hclamp] at hts
  refine ⟨hls, hts, ?_⟩
  rw [hoff, hts]
  ring

/-- Witness for C5 at the spec's second concrete scenario (clip 1). -/
theorem start_one_after_previous_witness :
    localStart 1 (ClipInput.mk 15 8).kill_time (21/2) (some 8) =
      some ((ClipInput.mk 15 8).kill_time - (21/2 - (8 + 1))) ∧
    (PlacementPlan.mk 1 (13/2) 9 9).trim_start =
      (ClipInput.mk 15 8).kill_time - (21/2 - (8 + 1)) ∧
    (PlacementPlan.mk 1 (13/2) 9 9).timeline_offset = 8 + 1 :=
  start_one_after_previous 1 (ClipInput.mk 15 8) (21/2) 8
    (PlacementPlan.mk 1 (13/2) 9 9) (some (21/2))
    (by norm_num)
    (by norm_num [pymin, pymax])
    (by norm_num [processClip, localStart, pymin, pymax])

/-- C6: on the spec's concrete two-clip input the plan has exactly the two
stated entries: clip 0 gets `trim_start = 0, trim_end = 14,
timeline_offset = -5` and clip 1 gets `trim_start = 6.5, trim_end = 9,
timeline_offset = 9`. -/
theorem concrete_two_clip_plan :
    generate_montage [⟨20, 13⟩, ⟨15, 8⟩] [8, 21/2] =
      some ([⟨0, 0, 14, -5⟩, ⟨1, 13/2, 9, 9⟩], some (21/2)) := by
  norm_num [generate_montage, planLoop, processClip, localStart, pymin, pymax,
    List.enum, List.enumFrom]

/-- C10: an input meeting all preconditions on which clamping moves a
surviving entry's `trim_start` past its clip's kill time (so the key moment
lies strictly before the trim window and the offset exceeds the target),
while the alignment identity still holds arithmetically. -/
theorem clamp_past_kill_example :
    clipsValid [⟨20, 13⟩, ⟨15, 8⟩] ∧
    ([⟨20, 13⟩, ⟨15, 8⟩] : List ClipInput).length = ([8, 17/2] : List ℚ).length ∧
    generate_montage [⟨20, 13⟩, ⟨15, 8⟩] [8, 17/2] =
      some ([⟨0, 0, 14, -5⟩, ⟨1, 17/2, 9, 9⟩], some (17/2)) ∧
    (ClipInput.mk 15 8).kill_time < (PlacementPlan.mk 1 (17/2) 9 9).trim_start ∧
    (17/2 : ℚ) < (PlacementPlan.mk 1 (17/2) 9 9).timeline_offset ∧
    (PlacementPlan.mk 1 (17/2) 9 9).timeline_offset +
      ((ClipInput.mk 15 8).kill_time - (PlacementPlan.mk 1 (17/2) 9 9).trim_start) =
      17/2 := by
  refine ⟨by norm_num [clipsValid], by norm_num, ?_, by norm_num, by norm_num, by norm_num⟩
  norm_num [generate_montage, planLoop, processClip, localStart, pymin, pymax,
    List.enum, List.enumFrom]

/-- C2 counterexample: on a concrete input whose second clip is skipped by
the degenerate-trim check, the accumulator after processing index 1 is the
previous value `8`, not `targets[1] = 8.5` — the claim's "unconditionally,
including when clip i was skipped" is false of the code, whose `continue`
fires before the state update. -/
theorem state_advance_counterexample :
    stateAfter [⟨20, 13⟩, ⟨1/2, 0⟩] [8, 17/2] 2 = some (some 8) ∧
    stateAfter [⟨20, 13⟩, ⟨1/2, 0⟩] [8, 17/2] 2 ≠ some (some (17/2)) := by
  have h : stateAfter [⟨20, 13⟩, ⟨1/2, 0⟩] [8, 17/2] 2 = some (some 8) := by
    norm_num [stateAfter, planLoop, processClip, localStart, pymin, pymax,
      List.enum, List.enumFrom, List.take]
  refine ⟨h, ?_⟩
  rw [h]
  intro hcontra
  simp only [Option.some.injEq] at hcontra
  norm_num at hcontra

/-- C2 amended: after the planning loop processes index `i`, the sequencing
state equals `targets[i]` when clip `i` survived, and keeps its previous
value (the state after index `i-1`) when clip `i` was skipped by the
degenerate-trim check. -/
theorem state_advance_amended (clips_info : List ClipInput) (beat_drops : List ℚ)
    (i : ℕ) (plans plans2 : List PlacementPlan) (prev prev2 : Option ℚ)
    (hi : i < clips_info.length)
    (h1 : planLoop beat_drops (clips_info.enum.take i) none = some (plans, prev))
    (h2 : planLoop beat_drops (clips_info.enum.take (i + 1)) none = some (plans2, prev2)) :
    prev2 = if plans2.length = plans.length then prev else beat_drops[i]? := by
  have henum : clips_info.enum[i]? = some (i, clips_info.get ⟨i, hi⟩) := by
    rw [List.getElem?_enum, List.getElem?_eq_getElem hi]
    rfl
  rw [List.take_succ, henum] at h2
  rw [planLoop_append, h1] at h2
  simp only [Option.toList, Option.bind] at h2
  rw [planLoop_singleton] at h2
  cases hbeat : beat_drops[i]? with
  | none => rw [hbeat] at h2; exact absurd h2 (by simp)
  | some beat_time =>
    rw [hbeat] at h2
    simp only [Option.bind] at h2
    cases hstep : processClip i (clips_info.get ⟨i, hi⟩) beat_time prev with
    | none => rw [hstep] at h2; exact absurd h2 (by simp)
    | some r =>
      obtain ⟨res, newPrev⟩ := r
      rw [hstep] at h2
      simp only [Option.map, Option.some.injEq, Prod.mk.injEq] at h2
      obtain ⟨hplans2, hprev2⟩ := h2
      rcases processClip_cases i (clips_info.get ⟨i, hi⟩) beat_time prev res newPrev
          hstep with ⟨hres, hnp⟩ | ⟨e, hres, hnp⟩
      · subst hres
        rw [if_pos]
        · rw [← hprev2, hnp]
        · rw [← hplans2]
          simp
      · subst hres
        rw [if_neg]
        · rw [← hprev2, hnp]
        · rw [← hplans2]
          simp

/-- Witness for the amended C2 at the spec's first concrete scenario
(index 0 survives, so the state becomes `targets[0]`). -/
theorem state_advance_amended_witness :
    (some (8 : ℚ) : Option ℚ) =
      if ([PlacementPlan.mk 0 0 14 (-5)].length = ([] : List PlacementPlan).length)
        then (none : Option ℚ) else ([8] : List ℚ)[0]? :=
  state_advance_amended [ClipInput.mk 20 13] [8] 0 [] [PlacementPlan.mk 0 0 14 (-5)]
    none (some 8) (by norm_num)
    rfl
    (by norm_num [planLoop, processClip, localStart, pymin, pymax,
      List.enum, List.enumFrom, List.take])

/-- C7: when at least one plan entry survives, the returned total duration
is the least upper bound of the surviving segments' end times
`timeline_offset + (trim_end - trim_start)` and the audio duration: it
bounds them all and is attained by the audio duration or by a segment. -/
theorem total_duration_max (audio_duration : ℚ) (clips_info : List ClipInput)
    (beat_drops : List ℚ) (plans : List PlacementPlan) (p : Option ℚ) (d : ℚ)
    (hrun : generate_montage clips_info beat_drops = some (plans, p))
    (hne : plans ≠ [])
    (hd : finalDuration audio_duration clips_info beat_drops = some d) :
    audio_duration ≤ d ∧
    (∀ e ∈ plans, e.timeline_offset + (e.trim_end - e.trim_start) ≤ d) ∧
    (d = audio_duration ∨
      ∃ e ∈ plans, d = e.timeline_offset + (e.trim_end - e.trim_start)) := by
  unfold finalDuration at hd
  rw [hrun] at hd
  simp only [Option.bind] at hd
  cases plans with
  | nil => exact absurd rfl hne
  | cons e0 es =>
    unfold compositeDuration at hd
    simp only [List.map_cons, Option.map, Option.some.injEq] at hd
    obtain ⟨hle0, hles⟩ :=
      foldl_pymax_le (es.map fun e => e.timeline_offset + (e.trim_end - e.trim_start))
        (e0.timeline_offset + (e0.trim_end - e0.trim_start))
    rw [← hd, pymax_eq]
    refine ⟨le_max_right _ _, ?_, ?_⟩
    · intro e he
      rcases List.mem_cons.mp he with rfl | he2
      · exact le_trans hle0 (le_max_left _ _)
      · exact le_trans
          (hles _ (List.mem_map_of_mem (fun x => x.timeline_offset + (x.trim_end - x.trim_start)) he2))
          (le_max_left _ _)
    · rcases max_choice ((es.map fun e => e.timeline_offset + (e.trim_end - e.trim_start)).foldl
          pymax (e0.timeline_offset + (e0.trim_end - e0.trim_start))) audio_duration with hm | hm
      · rw [hm]
        rcases foldl_pymax_mem
            (es.map fun e => e.timeline_offset + (e.trim_end - e.trim_start))
            (e0.timeline_offset + (e0.trim_end - e0.trim_start)) with hx | hx
        · exact Or.inr ⟨e0, List.mem_cons_self _ _, hx⟩
        · obtain ⟨e, he, heq⟩ := List.mem_map.mp hx
          exact Or.inr ⟨e, List.mem_cons_of_mem _ he, heq.symm⟩
      · exact Or.inl hm

/-- Witness for C7 at the spec's second concrete scenario with audio
duration 3 (the last segment ends past the audio, so the total is 11.5). -/
theorem total_duration_max_witness :
    (3 : ℚ) ≤ 23/2 ∧
    (∀ e ∈ [PlacementPlan.mk 0 0 14 (-5), PlacementPlan.mk 1 (13/2) 9 9],
      e.timeline_offset + (e.trim_end - e.trim_start) ≤ (23/2 : ℚ)) ∧
    ((23/2 : ℚ) = 3 ∨
      ∃ e ∈ [PlacementPlan.mk 0 0 14 (-5), PlacementPlan.mk 1 (13/2) 9 9],
        (23/2 : ℚ) = e.timeline_offset + (e.trim_end - e.trim_start)) :=
  total_duration_max 3 [⟨20, 13⟩, ⟨15, 8⟩] [8, 21/2]
    [PlacementPlan.mk 0 0 14 (-5), PlacementPlan.mk 1 (13/2) 9 9] (some (21/2)) (23/2)
    (by norm_num [generate_montage, planLoop, processClip, localStart, pymin,
      pymax, List.enum, List.enumFrom])
    (List.cons_ne_nil _ _)
    (by norm_num [finalDuration, generate_montage, planLoop, processClip,
      localStart, compositeDuration, pymin, pymax, List.enum, List.enumFrom])

/-- C8: under the preconditions (equal non-empty lengths, positive
durations, kill times within range) the planning computation never fails:
clip 0 always survives the degenerate-trim check, so the sequencing state
is set before any later clip reads it, and the loop returns a result. -/
theorem planner_total (clips_info : List ClipInput) (beat_drops : List ℚ)
    (hne : clips_info ≠ [])
    (hlen : clips_info.length = beat_drops.length)
    (hvalid : clipsValid clips_info) :
    ∃ plans q e, generate_montage clips_info beat_drops = some (plans, some q) ∧
      plans.head? = some e ∧ e.source_index = 0 := by
  cases clips_info with
  | nil => exact absurd rfl hne
  | cons c rest =>
    obtain ⟨hdur, hk0, hkd⟩ := hvalid c (List.mem_cons_self _ _)
    have hblen : 0 < beat_drops.length := by
      rw [← hlen]
      simp
    obtain ⟨b0, hbeat0⟩ : ∃ b, beat_drops[0]? = some b := by
      rw [List.getElem?_eq_getElem hblen]
      exact ⟨_, rfl⟩
    have hls : localStart 0 c.kill_time b0 none = some 0 := by
      unfold localStart
      simp
    have hts : pymin (pymax 0 (0 : ℚ)) c.duration = 0 := by
      rw [pymin_eq, pymax_eq, max_self, min_eq_left (le_of_lt hdur)]
    have hte : 0 < pymin (pymax 0 (c.kill_time + 1)) c.duration := by
      rw [pymin_eq, pymax_eq]
      apply lt_min
      · apply lt_max_of_lt_right
        linarith
      · exact hdur
    have hcond : ¬ pymin (pymax 0 (c.kill_time + 1)) c.duration ≤
        pymin (pymax 0 (0 : ℚ)) c.duration := by
      rw [hts]
      exact not_le.mpr hte
    have hstep : processClip 0 c b0 none =
        some (some (PlacementPlan.mk 0 (pymin (pymax 0 (0 : ℚ)) c.duration)
          (pymin (pymax 0 (c.kill_time + 1)) c.duration)
          (b0 - (c.kill_time - pymin (pymax 0 (0 : ℚ)) c.duration))), some b0) := by
      unfold processClip
      rw [hls]
      dsimp only
      rw [if_neg hcond]
    have hrange : ∀ pr ∈ List.enumFrom 1 rest, pr.1 < beat_drops.length := by
      intro pr hpr
      obtain ⟨h1, h2⟩ := List.mk_mem_enumFrom_iff_le_and_getElem?_sub.mp
        (show (pr.1, pr.2) ∈ List.enumFrom 1 rest from hpr)
      obtain ⟨hlt, _⟩ := List.getElem?_eq_some.mp h2
      rw [← hlen]
      simp only [List.length_cons]
      omega
    obtain ⟨plans, q, htl⟩ := planLoop_isSome beat_drops (List.enumFrom 1 rest) b0 hrange
    refine ⟨PlacementPlan.mk 0 (pymin (pymax 0 (0 : ℚ)) c.duration)
        (pymin (pymax 0 (c.kill_time + 1)) c.duration)
        (b0 - (c.kill_time - pymin (pymax 0 (0 : ℚ)) c.duration)) :: plans, q,
      PlacementPlan.mk 0 (pymin (pymax 0 (0 : ℚ)) c.duration)
        (pymin (pymax 0 (c.kill_time + 1)) c.duration)
        (b0 - (c.kill_time - pymin (pymax 0 (0 : ℚ)) c.duration)), ?_, rfl, rfl⟩
    unfold generate_montage
    rw [List.enum_cons]
    unfold planLoop
    rw [hbeat0]
    dsimp only
    rw [hstep]
    dsimp only
    rw [htl]
    rfl

/-- Witness for C8 at the spec's first concrete scenario. -/
theorem planner_total_witness :
    ∃ plans q e, generate_montage [ClipInput.mk 20 13] [8] = some (plans, some q) ∧
      plans.head? = some e ∧ e.source_index = 0 :=
  planner_total [ClipInput.mk 20 13] [8] (by norm_num) (by norm_num)
    (by norm_num [clipsValid])

/-- C9: when clip `i` (not first, not last) is skipped, the sequencing
state the next clip reads is the beat time of the last *surviving* clip
`j` (not the skipped clip's own index), so the next clip's pre-clamp start
is `key_time - (target - (targets[j] + 1))`. -/
theorem skip_uses_last_surviving (clips_info : List ClipInput) (beat_drops : List ℚ)
    (i : ℕ) (plans : List PlacementPlan) (p : Option ℚ)
    (elast : PlacementPlan) (cnext : ClipInput) (bnext : ℚ)
    (hi0 : 0 < i)
    (h1 : planLoop beat_drops (clips_info.enum.take (i + 1)) none = some (plans, p))
    (hskip : ∀ e ∈ plans, e.source_index ≠ i)
    (hlast : plans.getLast? = some elast)
    (hc : clips_info[i + 1]? = some cnext)
    (hb : beat_drops[i + 1]? = some bnext) :
    ∃ bj, beat_drops[elast.source_index]? = some bj ∧ p = some bj ∧
      elast.source_index ≠ i ∧
      localStart (i + 1) cnext.kill_time bnext p =
        some (cnext.kill_time - (bnext - (bj + 1))) := by
  rcases planLoop_state beat_drops (clips_info.enum.take (i + 1)) none plans p h1 with
    ⟨hnil, _⟩ | ⟨e, bj, hl, hbj, hp⟩
  · rw [hnil] at hlast
    exact absurd hlast (by simp)
  · rw [hl] at hlast
    have he : e = elast := Option.some.injEq _ _ ▸ hlast
    subst he
    refine ⟨bj, hbj, hp, hskip e (getLast?_mem plans e hl), ?_⟩
    rw [hp, localStart_pos, if_neg (Nat.succ_ne_zero i)]

/-- Witness for C9: clip 1 is skipped on this input, so clip 2's pre-clamp
start is measured from `targets[0] + 1 = 9`, giving `8 - (12 - 9) = 5`. -/
theorem skip_uses_last_surviving_witness :
    ∃ bj, ([8, 17/2, 12] : List ℚ)[(PlacementPlan.mk 0 0 14 (-5)).source_index]? = some bj ∧
      (some (8 : ℚ) : Option ℚ) = some bj ∧
      (PlacementPlan.mk 0 0 14 (-5)).source_index ≠ 1 ∧
      localStart (1 + 1) (ClipInput.mk 15 8).kill_time 12 (some (8 : ℚ)) =
        some ((ClipInput.mk 15 8).kill_time - (12 - (bj + 1))) :=
  skip_uses_last_surviving [⟨20, 13⟩, ⟨1/2, 0⟩, ⟨15, 8⟩] [8, 17/2, 12] 1
    [PlacementPlan.mk 0 0 14 (-5)] (some 8) (PlacementPlan.mk 0 0 14 (-5))
    (ClipInput.mk 15 8) 12
    (by norm_num)
    (by norm_num [planLoop, processClip, localStart, pymin, pymax,
      List.enum, List.enumFrom, List.take])
    (by norm_num)
    (by norm_num)
    (by norm_num)
    (by norm_num)
